import Mathlib

/-!
# Parallel-Grepper: word-frequency counters, shallow embedding

A shallow embedding of the word-frequency counting program
(`src/sequential/word_counter_sequential.cpp` and
`src/parallel/word_counter_parallel.cpp`) together with proofs of the
specification's claims about it.

Modelling conventions:
* C++ `std::string` becomes Lean `String`; bytes become `Char` (the ASCII
  classification used by `std::isalpha` / `std::tolower` in the "C" locale is
  spelled out explicitly, so the extra non-byte code points change nothing).
* `std::unordered_map<std::string, unsigned long long>` becomes an association
  list `List (String × Nat)` whose keys are pairwise distinct; `operator[]`
  followed by `+=` is the `bump` operation, lookup-with-default-0 is
  `getCount`.  Equality of `unordered_map`s is extensional (same keys, same
  counts), which the theorems state via `getCount` and key cardinality.
  Counts are `unsigned long long`; they are modelled by `Nat` since no claim
  depends on wrap-around at `2 ^ 64`.
* OpenMP `schedule(static)` partitioning of the index range among `W` threads
  becomes an explicit list of contiguous chunk sizes (`n / W` each, the first
  `n % W` threads receiving one extra element), each worker folds over its own
  slice exactly as the loop body does, and the `omp critical` merge is a fold
  of the local maps into the shared map.  The shared running total is
  race-free under all three sync methods (reduction / atomic / critical), so
  its final value is the number of increments executed; the `Reduction`
  branch is modelled as the sum of per-worker private totals and the
  `Atomic` / `Critical` branches as a fold accumulating the shared counter.
* Wall-clock measurement cannot be computed, so the elapsed time written into
  `executionTime` on a successful run is an oracle parameter; the error path
  stores the literal `0` exactly as the code does (`executionTime = 0.0`).
* The file system is a map `String → Option String` (`none` = the
  `std::ifstream` fails to open) and writability of an output path is a
  predicate `String → Bool` (`false` = the `std::ofstream` fails to open).
  `std::cerr` diagnostics are collected in a `consoleErrors` list.
-/

namespace WordCounter

/-- `std::isalpha` under the default "C" locale: ASCII letters only. -/
def isAlphaChar (c : Char) : Bool :=
  ('A' ≤ c && c ≤ 'Z') || ('a' ≤ c && c ≤ 'z')

/-- `std::tolower` under the default "C" locale: shift ASCII uppercase down by 32. -/
def toLowerChar (c : Char) : Char :=
  if 'A' ≤ c && c ≤ 'Z' then Char.ofNat (c.toNat + 32) else c

/-- `normalizeWord` from both counters (identical in the two classes): iterate
the characters of the word, keep the alphabetic ones, lowercase each, and
accumulate them in order into a fresh string. -/
def normalizeWord (word : String) : String :=
  ⟨word.data.foldl (fun acc c => if isAlphaChar c then acc ++ [toLowerChar c] else acc) []⟩

/-- `std::isspace` under the "C" locale (the whitespace that `operator>>` skips). -/
def isSpaceChar (c : Char) : Bool :=
  c = ' ' || c = '\t' || c = '\n' || c = '\x0b' || c = '\x0c' || c = '\r'

/-- Stream extraction `stream >> word` repeated to exhaustion: split the text
into maximal runs of non-whitespace characters.  `cur` holds the characters of
the word being read, in reverse. -/
def splitTokens : List Char → List Char → List String
  | [], cur => if cur.isEmpty then [] else [⟨cur.reverse⟩]
  | c :: rest, cur =>
    if isSpaceChar c then
      if cur.isEmpty then splitTokens rest [] else ⟨cur.reverse⟩ :: splitTokens rest []
    else splitTokens rest (c :: cur)

/-- The raw token list read from a text by `while (stream >> word)`. -/
def tokenize (text : String) : List String :=
  splitTokens text.data []

/-- The frequency map: `std::unordered_map<std::string, unsigned long long>`
as an association list with pairwise-distinct keys. -/
abbrev WordMap := List (String × Nat)

/-- `wordFreq[w] += k`: `operator[]` default-constructs an absent entry at 0,
then `+=` adds `k`.  On the association list this increments the (unique)
entry holding `w`, or appends a fresh entry `(w, k)`. -/
def bump (m : WordMap) (w : String) (k : Nat) : WordMap :=
  match m with
  | [] => [(w, k)]
  | e :: rest => if e.1 = w then (e.1, e.2 + k) :: rest else e :: bump rest w k

/-- Lookup with default 0: the count an `unordered_map` associates to a key
(0 when the key is absent). -/
def getCount (m : WordMap) (w : String) : Nat :=
  match m with
  | [] => 0
  | e :: rest => if e.1 = w then e.2 else getCount rest w

/-- The loop body shared by the sequential counter and each parallel worker:
normalize the token, and when the result is non-empty increment its map entry
and the running word count; an empty normalization leaves both untouched. -/
def countStep (acc : WordMap × Nat) (tok : String) : WordMap × Nat :=
  let normalized := normalizeWord tok
  if normalized = "" then acc else (bump acc.1 normalized 1, acc.2 + 1)

/-- Run the counting loop over a token list from a given map/count state. -/
def processTokens (acc : WordMap × Nat) (ts : List String) : WordMap × Nat :=
  ts.foldl countStep acc

/-- Result record of one counting operation: the returned frequency map plus
the `totalWords` / `uniqueWords` members the operation stores. -/
structure CountResult where
  map : WordMap
  totalWords : Nat
  uniqueWords : Nat
  deriving DecidableEq

/-- `WordCounterSequential::countWords`: tokenize, run the counting loop from
an empty map and a zeroed total, record `uniqueWords = wordFreq.size()`. -/
def countWordsSeq (text : String) : CountResult :=
  let p := processTokens ([], 0) (tokenize text)
  ⟨p.1, p.2, p.1.length⟩

/-- `WordCounterParallel::SyncMethod`. -/
inductive SyncMethod where
  | Critical
  | Atomic
  | Reduction
  deriving DecidableEq

/-- Chunks handed to `W` threads by `schedule(static)` over `n` iterations:
every thread gets `q = n / W` iterations and the first `r = n % W` threads one
more, contiguously in thread order.  The arguments count down the remaining
threads and the remaining extra iterations. -/
def chunkSizesAux : Nat → Nat → Nat → List Nat
  | 0, _, _ => []
  | i + 1, q, r => (q + if r ≠ 0 then 1 else 0) :: chunkSizesAux i q (r - 1)

/-- The chunk sizes for `n` loop iterations on `W` threads. -/
def chunkSizes (n W : Nat) : List Nat :=
  chunkSizesAux W (n / W) (n % W)

/-- Cut a list into consecutive slices of the given sizes. -/
def splitAtSizes : List Nat → List String → List (List String)
  | [], _ => []
  | k :: ks, l => l.take k :: splitAtSizes ks (l.drop k)

/-- One worker's parallel region body: fold the counting loop over its own
slice, building the thread-local `localMap` and its private count of non-empty
normalized words (the number of `totalWordCount` increments it performs). -/
def workerLocal (slice : List String) : WordMap × Nat :=
  processTokens ([], 0) slice

/-- The `omp critical` merge: fold one worker's local map into the shared map,
`wordFreq[entry.first] += entry.second` per entry. -/
def mergeInto (g : WordMap) (l : WordMap) : WordMap :=
  l.foldl (fun g e => bump g e.1 e.2) g

/-- `WordCounterParallel::buildWordMapFromList` on `W` threads: empty input
short-circuits to an empty map and `totalWords = 0`; otherwise the statically
partitioned slices are processed by the workers, the local maps are merged
under the critical section, and the shared `totalWordCount` is obtained per
sync method — `Reduction` sums the per-worker private totals after the join,
`Atomic` / `Critical` accumulate the shared counter one worker after another
(their increments are race-free, so the final value is the number of
increments executed). -/
def buildWordMapFromList (syncMethod : SyncMethod) (W : Nat) (rawWords : List String) :
    WordMap × Nat :=
  if rawWords.isEmpty then ([], 0)
  else
    let slices := splitAtSizes (chunkSizes rawWords.length W) rawWords
    let locals := slices.map workerLocal
    let wordFreq := locals.foldl (fun g lc => mergeInto g lc.1) []
    match syncMethod with
    | SyncMethod.Reduction => (wordFreq, (locals.map Prod.snd).sum)
    | SyncMethod.Atomic => (wordFreq, locals.foldl (fun t lc => t + lc.2) 0)
    | SyncMethod.Critical => (wordFreq, locals.foldl (fun t lc => t + lc.2) 0)

/-- `WordCounterParallel::countWords` on `W` threads: tokenize, build the map
from the raw token list, record `uniqueWords = wordFreq.size()`. -/
def countWordsPar (syncMethod : SyncMethod) (W : Nat) (text : String) : CountResult :=
  let p := buildWordMapFromList syncMethod W (tokenize text)
  ⟨p.1, p.2, p.1.length⟩

/-- Descending order on frequencies, the comparator
`[](a, b) { return a.second > b.second; }` read as the weak order it sorts by
(`a` may precede `b` exactly when `b.second <= a.second`). -/
def byCountDesc (a b : String × Nat) : Prop :=
  b.2 ≤ a.2

instance : DecidableRel byCountDesc := fun a b => Nat.decLe b.2 a.2

instance : IsTotal (String × Nat) byCountDesc :=
  ⟨fun a b => Nat.le_total b.2 a.2⟩

instance : IsTrans (String × Nat) byCountDesc :=
  ⟨fun _ _ _ hab hbc => Nat.le_trans hbc hab⟩

/-- `getTopWords` of either counter (identical in the two classes): copy the
map's entries into a vector, `std::sort` it descending by count, and
`resize(n)` when `0 < n < size`.  `std::sort` returns an unspecified sorted
permutation of the input; the model fixes the deterministic sorted permutation
computed by insertion sort, which is one of the permitted outcomes.  `n` is a
C++ `int`, so it is an `Int` here to keep the `n <= 0` cases. -/
def getTopWords (wordMap : WordMap) (n : Int) : List (String × Nat) :=
  let wordVec := List.insertionSort byCountDesc wordMap
  if 0 < n ∧ n < (wordVec.length : Int) then wordVec.take n.toNat else wordVec

/-- The mutable statistics members of a counter object
(`executionTime`, `totalWords`, `uniqueWords`).  `executionTime` is a
`double` holding milliseconds; its values are opaque here (`Nat`-indexed
oracle readings), only `0` is written literally by the code. -/
structure CounterState where
  executionTime : Nat
  totalWords : Nat
  uniqueWords : Nat
  deriving DecidableEq

/-- The constructor of either counter zero-initializes all three members. -/
def initialState : CounterState := ⟨0, 0, 0⟩

/-- Outcome of a `countWordsFromFile` call: the updated members, the returned
map, and any `std::cerr` diagnostics. -/
structure FileResult where
  state : CounterState
  map : WordMap
  consoleErrors : List String
  deriving DecidableEq

/-- `WordCounterSequential::countWordsFromFile` on a file system `fs`
(`fs filename = none` models an `ifstream` that fails to open).  On failure it
prints one error line, stores `executionTime = 0.0` and returns an empty map
without touching `totalWords` or `uniqueWords`; on success it counts the
file's tokens exactly as `countWords` does and stores the measured elapsed
time (the oracle value `elapsed`). -/
def countWordsFromFileSeq (fs : String → Option String) (elapsed : Nat)
    (st : CounterState) (filename : String) : FileResult :=
  match fs filename with
  | none =>
    ⟨{ st with executionTime := 0 }, [], ["Error: Cannot open file " ++ filename]⟩
  | some text =>
    let p := processTokens ([], 0) (tokenize text)
    ⟨⟨elapsed, p.2, p.1.length⟩, p.1, []⟩

/-- `WordCounterParallel::countWordsFromFile` on `W` threads, same file-system
model: failure behaves exactly as in the sequential class; success hands the
raw token list to `buildWordMapFromList`. -/
def countWordsFromFilePar (syncMethod : SyncMethod) (W : Nat)
    (fs : String → Option String) (elapsed : Nat)
    (st : CounterState) (filename : String) : FileResult :=
  match fs filename with
  | none =>
    ⟨{ st with executionTime := 0 }, [], ["Error: Cannot open file " ++ filename]⟩
  | some text =>
    let p := buildWordMapFromList syncMethod W (tokenize text)
    ⟨⟨elapsed, p.2, p.1.length⟩, p.1, []⟩

/-- The report `saveResults` writes on success, kept structured: the header
statistics read from the members, and the `getTopWords` rows in order. -/
structure Report where
  headerTotalWords : Nat
  headerUniqueWords : Nat
  headerExecutionTime : Nat
  rows : List (String × Nat)
  deriving DecidableEq

/-- Outcome of a `saveResults` call: the report written to the output file
(`none` when nothing was written), and any `std::cerr` diagnostics.  The
function always returns normally — `std::ofstream` does not throw on an open
failure — which the model reflects by being total. -/
structure SaveResult where
  written : Option Report
  consoleErrors : List String
  deriving DecidableEq

/-- `saveResults` of either counter (identical in the two classes) against a
writability predicate on output paths: an unopenable destination prints one
error line and aborts before anything is written; otherwise the header block
and the top-`topN` rows are written. -/
def saveResults (canWrite : String → Bool) (st : CounterState) (wordMap : WordMap)
    (filename : String) (topN : Int) : SaveResult :=
  if canWrite filename then
    ⟨some ⟨st.totalWords, st.uniqueWords, st.executionTime, getTopWords wordMap topN⟩, []⟩
  else
    ⟨none, ["Error: Cannot create output file " ++ filename]⟩

/-! Measurement helpers used by the theorem statements (not part of the
source program): key list, per-key entry sum, total of all counts, the
multiset of non-empty normalized words of a token list, and the well-formedness
predicates every map built by the program satisfies. -/

/-- The key list of a frequency map. -/
def keys (m : WordMap) : List String :=
  m.map Prod.fst

/-- Sum of the counts of every entry of `m` holding the key `w` (coincides
with `getCount` when keys are distinct, but needs no such hypothesis). -/
def entriesSum (m : WordMap) (w : String) : Nat :=
  (m.map (fun e => if e.1 = w then e.2 else 0)).sum

/-- Sum of all counts stored in a frequency map. -/
def mapTotal (m : WordMap) : Nat :=
  (m.map Prod.snd).sum

/-- Cardinality of a frequency map's key set. -/
def keyCard (m : WordMap) : Nat :=
  (keys m).toFinset.card

/-- The non-empty normalized forms of a token list, in order: exactly the
words the counting loop tallies. -/
def normalizedWords (ts : List String) : List String :=
  (ts.map normalizeWord).filter (fun s => s ≠ "")

/-- Keys pairwise distinct — the `unordered_map` representation invariant. -/
def keysNodup (m : WordMap) : Prop :=
  (keys m).Nodup

/-- Every stored count is at least 1 (no key is ever inserted at 0 and left
there). -/
def posCounts (m : WordMap) : Prop :=
  ∀ e ∈ m, 1 ≤ e.2

/-! ## Lemmas about `bump` -/

theorem getCount_bump (m : WordMap) (w : String) (k : Nat) (x : String) :
    getCount (bump m w k) x = getCount m x + (if x = w then k else 0) := by
  induction m with
  | nil =>
    by_cases h : x = w
    · subst h; simp [bump, getCount]
    · simp [bump, getCount, h, Ne.symm h]
  | cons e rest ih =>
    by_cases h : e.1 = w
    · by_cases hx : e.1 = x
      · have hxw : x = w := hx ▸ h
        simp [bump, getCount, h, hx, hxw]
      · have hxw : ¬ x = w := fun hw => hx (hw ▸ h)
        simp [bump, getCount, h, hx, hxw, Ne.symm hxw]
    · by_cases hx : e.1 = x
      · have hxw : ¬ x = w := fun hw => h (hw ▸ hx)
        simp [bump, getCount, h, hx, hxw]
      · simp [bump, getCount, h, hx, ih]

theorem entriesSum_bump (m : WordMap) (w : String) (k : Nat) (x : String) :
    entriesSum (bump m w k) x = entriesSum m x + (if x = w then k else 0) := by
  induction m with
  | nil =>
    by_cases h : x = w
    · subst h; simp [bump, entriesSum]
    · simp [bump, entriesSum, h, Ne.symm h]
  | cons e rest ih =>
    by_cases h : e.1 = w
    · by_cases hx : e.1 = x
      · have hxw : x = w := hx ▸ h
        simp [bump, entriesSum, h, hx, hxw]; omega
      · have hxw : ¬ x = w := fun hw => hx (hw ▸ h)
        simp [bump, entriesSum, h, hx, hxw, Ne.symm hxw]
    · by_cases hx : e.1 = x
      · simp only [bump, if_neg h, entriesSum, List.map_cons, List.sum_cons, if_pos hx]
        have := ih
        simp only [entriesSum] at this
        omega
      · simp only [bump, if_neg h, entriesSum, List.map_cons, List.sum_cons, if_neg hx]
        have := ih
        simp only [entriesSum] at this
        omega

theorem mapTotal_bump (m : WordMap) (w : String) (k : Nat) :
    mapTotal (bump m w k) = mapTotal m + k := by
  induction m with
  | nil => simp [bump, mapTotal]
  | cons e rest ih =>
    by_cases h : e.1 = w
    · simp [bump, mapTotal, h]; omega
    · simp only [bump, if_neg h, mapTotal, List.map_cons, List.sum_cons]
      have := ih
      simp only [mapTotal] at this
      omega

theorem mem_keys_bump (m : WordMap) (w : String) (k : Nat) (x : String) :
    x ∈ keys (bump m w k) ↔ x ∈ keys m ∨ x = w := by
  induction m with
  | nil => simp [bump, keys, eq_comm]
  | cons e rest ih =>
    by_cases h : e.1 = w
    · by_cases hx : x = w
      · simp [bump, keys, h, hx]
      · simp [bump, keys, h, hx]
    · simp only [bump, if_neg h, keys, List.map_cons, List.mem_cons]
      constructor
      · rintro (he | hm)
        · exact Or.inl (Or.inl he)
        · rcases (ih.mp hm) with hm' | hw
          · exact Or.inl (Or.inr hm')
          · exact Or.inr hw
      · rintro ((he | hm) | hw)
        · exact Or.inl he
        · exact Or.inr (ih.mpr (Or.inl hm))
        · exact Or.inr (ih.mpr (Or.inr hw))

theorem keysNodup_bump (m : WordMap) (w : String) (k : Nat) (h : keysNodup m) :
    keysNodup (bump m w k) := by
  induction m with
  | nil => simp [bump, keysNodup, keys]
  | cons e rest ih =>
    simp only [keysNodup, keys, List.map_cons, List.nodup_cons] at h
    by_cases he : e.1 = w
    · simpa [keysNodup, bump, he, keys, List.nodup_cons] using h
    · have tail := ih h.2
      simp only [keysNodup, bump, if_neg he, keys, List.map_cons, List.nodup_cons]
      refine ⟨fun hmem => ?_, tail⟩
      rcases (mem_keys_bump rest w k e.1).mp hmem with hm | hw
      · exact h.1 (by simpa [keys] using hm)
      · exact he hw

theorem posCounts_bump (m : WordMap) (w : String) (k : Nat)
    (h : posCounts m) (hk : 1 ≤ k) : posCounts (bump m w k) := by
  induction m with
  | nil => simpa [bump, posCounts] using hk
  | cons e rest ih =>
    have he2 : 1 ≤ e.2 := h e (List.mem_cons_self e rest)
    have hrest : posCounts rest := fun f hf => h f (List.mem_cons_of_mem e hf)
    by_cases he : e.1 = w
    · intro f hf
      simp only [bump, if_pos he, List.mem_cons] at hf
      rcases hf with hf | hf
      · subst hf; simpa using Nat.le_trans he2 (Nat.le_add_right _ _)
      · exact hrest f hf
    · intro f hf
      simp only [bump, if_neg he, List.mem_cons] at hf
      rcases hf with hf | hf
      · subst hf; exact he2
      · exact ih hrest f hf

theorem getCount_pos_iff (m : WordMap) (x : String) (h : posCounts m) :
    0 < getCount m x ↔ x ∈ keys m := by
  induction m with
  | nil => simp [getCount, keys]
  | cons e rest ih =>
    have hrest : posCounts rest := fun f hf => h f (List.mem_cons_of_mem e hf)
    by_cases he : e.1 = x
    · have he2 : 1 ≤ e.2 := h e (List.mem_cons_self e rest)
      simp [getCount, keys, he, he2, Nat.lt_of_lt_of_le Nat.zero_lt_one he2]
    · have hkeys := ih hrest
      simp only [keys] at hkeys
      simp only [getCount, if_neg he, keys, List.map_cons, List.mem_cons]
      rw [hkeys]
      exact ⟨fun hm => Or.inr hm,
        fun h' => h'.elim (fun hx => absurd hx.symm he) id⟩

/-! ## Lemmas about the counting loop -/

theorem normalizedWords_cons (tok : String) (ts : List String) :
    normalizedWords (tok :: ts) =
      if normalizeWord tok = "" then normalizedWords ts
      else normalizeWord tok :: normalizedWords ts := by
  by_cases h : normalizeWord tok = "" <;> simp [normalizedWords, h]

theorem normalizedWords_append (a b : List String) :
    normalizedWords (a ++ b) = normalizedWords a ++ normalizedWords b := by
  simp [normalizedWords]

theorem countStep_of_empty (acc : WordMap × Nat) (tok : String)
    (h : normalizeWord tok = "") : countStep acc tok = acc := by
  simp [countStep, h]

theorem countStep_of_nonempty (m : WordMap) (t : Nat) (tok : String)
    (h : ¬ normalizeWord tok = "") :
    countStep (m, t) tok = (bump m (normalizeWord tok) 1, t + 1) := by
  simp [countStep, h]

theorem processTokens_snd (ts : List String) : ∀ (m : WordMap) (t : Nat),
    (processTokens (m, t) ts).2 = t + (normalizedWords ts).length := by
  induction ts with
  | nil => intro m t; simp [processTokens, normalizedWords]
  | cons tok ts ih =>
    intro m t
    show (processTokens (countStep (m, t) tok) ts).2 = _
    by_cases h : normalizeWord tok = ""
    · rw [countStep_of_empty _ _ h, ih m t, normalizedWords_cons, if_pos h]
    · rw [countStep_of_nonempty _ _ _ h]
      rw [ih _ _, normalizedWords_cons, if_neg h, List.length_cons]
      omega

theorem processTokens_getCount (ts : List String) : ∀ (m : WordMap) (t : Nat) (x : String),
    getCount (processTokens (m, t) ts).1 x = getCount m x + (normalizedWords ts).count x := by
  induction ts with
  | nil => intro m t x; simp [processTokens, normalizedWords]
  | cons tok ts ih =>
    intro m t x
    show getCount (processTokens (countStep (m, t) tok) ts).1 x = _
    by_cases h : normalizeWord tok = ""
    · rw [countStep_of_empty _ _ h, ih m t, normalizedWords_cons, if_pos h]
    · rw [countStep_of_nonempty _ _ _ h]
      rw [ih _ _, normalizedWords_cons, if_neg h, getCount_bump, List.count_cons]
      by_cases hx : x = normalizeWord tok
      · simp [hx]; omega
      · simp [hx, Ne.symm hx]

theorem processTokens_entriesSum (ts : List String) : ∀ (m : WordMap) (t : Nat) (x : String),
    entriesSum (processTokens (m, t) ts).1 x = entriesSum m x + (normalizedWords ts).count x := by
  induction ts with
  | nil => intro m t x; simp [processTokens, normalizedWords]
  | cons tok ts ih =>
    intro m t x
    show entriesSum (processTokens (countStep (m, t) tok) ts).1 x = _
    by_cases h : normalizeWord tok = ""
    · rw [countStep_of_empty _ _ h, ih m t, normalizedWords_cons, if_pos h]
    · rw [countStep_of_nonempty _ _ _ h]
      rw [ih _ _, normalizedWords_cons, if_neg h, entriesSum_bump, List.count_cons]
      by_cases hx : x = normalizeWord tok
      · simp [hx]; omega
      · simp [hx, Ne.symm hx]

theorem processTokens_mapTotal (ts : List String) : ∀ (m : WordMap) (t : Nat),
    mapTotal (processTokens (m, t) ts).1 = mapTotal m + (normalizedWords ts).length := by
  induction ts with
  | nil => intro m t; simp [processTokens, normalizedWords]
  | cons tok ts ih =>
    intro m t
    show mapTotal (processTokens (countStep (m, t) tok) ts).1 = _
    by_cases h : normalizeWord tok = ""
    · rw [countStep_of_empty _ _ h, ih m t, normalizedWords_cons, if_pos h]
    · rw [countStep_of_nonempty _ _ _ h]
      rw [ih _ _, normalizedWords_cons, if_neg h, mapTotal_bump, List.length_cons]
      omega

theorem processTokens_keysNodup (ts : List String) : ∀ (m : WordMap) (t : Nat),
    keysNodup m → keysNodup (processTokens (m, t) ts).1 := by
  induction ts with
  | nil => intro m t h; simpa [processTokens] using h
  | cons tok ts ih =>
    intro m t h
    show keysNodup (processTokens (countStep (m, t) tok) ts).1
    by_cases he : normalizeWord tok = ""
    · rw [countStep_of_empty _ _ he]; exact ih m t h
    · rw [countStep_of_nonempty _ _ _ he]
      exact ih _ _ (keysNodup_bump m _ 1 h)

theorem processTokens_posCounts (ts : List String) : ∀ (m : WordMap) (t : Nat),
    posCounts m → posCounts (processTokens (m, t) ts).1 := by
  induction ts with
  | nil => intro m t h; simpa [processTokens] using h
  | cons tok ts ih =>
    intro m t h
    show posCounts (processTokens (countStep (m, t) tok) ts).1
    by_cases he : normalizeWord tok = ""
    · rw [countStep_of_empty _ _ he]; exact ih m t h
    · rw [countStep_of_nonempty _ _ _ he]
      exact ih _ _ (posCounts_bump m _ 1 h (Nat.le_refl 1))

/-! ## Lemmas about the critical-section merge -/

theorem getCount_mergeInto (l : WordMap) : ∀ (g : WordMap) (x : String),
    getCount (mergeInto g l) x = getCount g x + entriesSum l x := by
  induction l with
  | nil => intro g x; simp [mergeInto, entriesSum]
  | cons e rest ih =>
    intro g x
    show getCount (mergeInto (bump g e.1 e.2) rest) x = _
    rw [ih, getCount_bump]
    simp only [entriesSum, List.map_cons, List.sum_cons]
    by_cases hx : e.1 = x
    · simp [hx]; omega
    · have hx' : ¬ x = e.1 := fun h => hx h.symm
      rw [if_neg hx', if_neg hx]
      omega

theorem entriesSum_mergeInto (l : WordMap) : ∀ (g : WordMap) (x : String),
    entriesSum (mergeInto g l) x = entriesSum g x + entriesSum l x := by
  induction l with
  | nil => intro g x; simp [mergeInto, entriesSum]
  | cons e rest ih =>
    intro g x
    show entriesSum (mergeInto (bump g e.1 e.2) rest) x = _
    rw [ih, entriesSum_bump]
    simp only [entriesSum, List.map_cons, List.sum_cons]
    by_cases hx : e.1 = x
    · simp [hx]; omega
    · have hx' : ¬ x = e.1 := fun h => hx h.symm
      rw [if_neg hx', if_neg hx]
      omega

theorem mapTotal_mergeInto (l : WordMap) : ∀ g : WordMap,
    mapTotal (mergeInto g l) = mapTotal g + mapTotal l := by
  induction l with
  | nil => intro g; simp [mergeInto, mapTotal]
  | cons e rest ih =>
    intro g
    show mapTotal (mergeInto (bump g e.1 e.2) rest) = _
    rw [ih, mapTotal_bump]
    simp only [mapTotal, List.map_cons, List.sum_cons]
    omega

theorem keysNodup_mergeInto (l : WordMap) : ∀ g : WordMap,
    keysNodup g → keysNodup (mergeInto g l) := by
  induction l with
  | nil => intro g h; simpa [mergeInto] using h
  | cons e rest ih =>
    intro g h
    show keysNodup (mergeInto (bump g e.1 e.2) rest)
    exact ih _ (keysNodup_bump g e.1 e.2 h)

theorem posCounts_mergeInto (l : WordMap) : ∀ g : WordMap,
    posCounts g → posCounts l → posCounts (mergeInto g l) := by
  induction l with
  | nil => intro g hg _; simpa [mergeInto] using hg
  | cons e rest ih =>
    intro g hg hl
    show posCounts (mergeInto (bump g e.1 e.2) rest)
    have he : 1 ≤ e.2 := hl e (List.mem_cons_self e rest)
    have hrest : posCounts rest := fun f hf => hl f (List.mem_cons_of_mem e hf)
    exact ih _ (posCounts_bump g e.1 e.2 hg he) hrest

/-! ## Lemmas about the fold of all workers' merges -/

theorem getCount_foldMerge (locals : List (WordMap × Nat)) :
    ∀ (g : WordMap) (x : String),
      getCount (locals.foldl (fun g lc => mergeInto g lc.1) g) x =
        getCount g x + (locals.map (fun lc => entriesSum lc.1 x)).sum := by
  induction locals with
  | nil => intro g x; simp
  | cons lc rest ih =>
    intro g x
    show getCount (rest.foldl _ (mergeInto g lc.1)) x = _
    rw [ih, getCount_mergeInto]
    simp only [List.map_cons, List.sum_cons]
    omega

theorem mapTotal_foldMerge (locals : List (WordMap × Nat)) :
    ∀ g : WordMap,
      mapTotal (locals.foldl (fun g lc => mergeInto g lc.1) g) =
        mapTotal g + (locals.map (fun lc => mapTotal lc.1)).sum := by
  induction locals with
  | nil => intro g; simp
  | cons lc rest ih =>
    intro g
    show mapTotal (rest.foldl _ (mergeInto g lc.1)) = _
    rw [ih, mapTotal_mergeInto]
    simp only [List.map_cons, List.sum_cons]
    omega

theorem keysNodup_foldMerge (locals : List (WordMap × Nat)) :
    ∀ g : WordMap, keysNodup g →
      keysNodup (locals.foldl (fun g lc => mergeInto g lc.1) g) := by
  induction locals with
  | nil => intro g h; simpa using h
  | cons lc rest ih =>
    intro g h
    exact ih _ (keysNodup_mergeInto lc.1 g h)

theorem posCounts_foldMerge (locals : List (WordMap × Nat)) :
    ∀ g : WordMap, posCounts g → (∀ lc ∈ locals, posCounts lc.1) →
      posCounts (locals.foldl (fun g lc => mergeInto g lc.1) g) := by
  induction locals with
  | nil => intro g h _; simpa using h
  | cons lc rest ih =>
    intro g h hl
    exact ih _ (posCounts_mergeInto lc.1 g h (hl lc (List.mem_cons_self lc rest)))
      (fun f hf => hl f (List.mem_cons_of_mem lc hf))

theorem foldAdd_eq_sum (locals : List (WordMap × Nat)) : ∀ t : Nat,
    locals.foldl (fun t lc => t + lc.2) t = t + (locals.map Prod.snd).sum := by
  induction locals with
  | nil => intro t; simp
  | cons lc rest ih =>
    intro t
    show rest.foldl _ (t + lc.2) = _
    rw [ih]
    simp only [List.map_cons, List.sum_cons]
    omega

/-! ## Lemmas about the static partition -/

theorem chunkSizesAux_sum (W : Nat) : ∀ q r : Nat,
    (chunkSizesAux W q r).sum = W * q + min r W := by
  induction W with
  | zero => intro q r; simp [chunkSizesAux]
  | succ i ih =>
    intro q r
    show (q + if r ≠ 0 then 1 else 0) + (chunkSizesAux i q (r - 1)).sum = _
    rw [ih]
    rcases r with _ | s
    · simp [Nat.succ_mul]; omega
    · have : min (s + 1) (i + 1) = min s i + 1 := Nat.succ_min_succ s i
      simp [Nat.succ_mul, this]
      omega

theorem chunkSizes_sum (n W : Nat) (h : 1 ≤ W) : (chunkSizes n W).sum = n := by
  rw [chunkSizes, chunkSizesAux_sum]
  have hmod : n % W < W := Nat.mod_lt n (Nat.lt_of_lt_of_le Nat.zero_lt_one h)
  rw [Nat.min_eq_left (Nat.le_of_lt hmod)]
  have := Nat.div_add_mod n W
  omega

theorem join_splitAtSizes (ks : List Nat) : ∀ l : List String,
    l.length ≤ ks.sum → (splitAtSizes ks l).flatten = l := by
  induction ks with
  | nil =>
    intro l hl
    have : l = [] := List.eq_nil_of_length_eq_zero (Nat.le_zero.mp (by simpa using hl))
    simp [splitAtSizes, this]
  | cons k ks ih =>
    intro l hl
    show (l.take k :: splitAtSizes ks (l.drop k)).flatten = l
    rw [List.flatten_cons, ih (l.drop k) (by simp only [List.sum_cons] at hl; simp only [List.length_drop]; omega)]
    exact List.take_append_drop k l

/-! ## Master lemmas for `buildWordMapFromList` and the sequential loop -/

theorem slices_count_sum (slices : List (List String)) (x : String) :
    (slices.map (fun s => (normalizedWords s).count x)).sum =
      (normalizedWords slices.flatten).count x := by
  induction slices with
  | nil => simp [normalizedWords]
  | cons s rest ih =>
    simp only [List.map_cons, List.sum_cons, List.flatten_cons,
      normalizedWords_append, List.count_append, ih]

theorem slices_length_sum (slices : List (List String)) :
    (slices.map (fun s => (normalizedWords s).length)).sum =
      (normalizedWords slices.flatten).length := by
  induction slices with
  | nil => simp [normalizedWords]
  | cons s rest ih =>
    simp only [List.map_cons, List.sum_cons, List.flatten_cons,
      normalizedWords_append, List.length_append, ih]

theorem flatten_slices (W : Nat) (raws : List String) (h : 1 ≤ W) :
    (splitAtSizes (chunkSizes raws.length W) raws).flatten = raws :=
  join_splitAtSizes _ raws (by rw [chunkSizes_sum raws.length W h])

theorem buildWordMapFromList_eq (method : SyncMethod) (W : Nat) (raws : List String)
    (h : raws.isEmpty = false) :
    buildWordMapFromList method W raws =
      (((splitAtSizes (chunkSizes raws.length W) raws).map workerLocal).foldl
          (fun g lc => mergeInto g lc.1) [],
        (((splitAtSizes (chunkSizes raws.length W) raws).map workerLocal).map
          Prod.snd).sum) := by
  cases method <;> simp [buildWordMapFromList, h, foldAdd_eq_sum]

theorem workerLocal_entriesSum (s : List String) (x : String) :
    entriesSum (workerLocal s).1 x = (normalizedWords s).count x := by
  have := processTokens_entriesSum s [] 0 x
  simpa [workerLocal, entriesSum] using this

theorem workerLocal_snd (s : List String) :
    (workerLocal s).2 = (normalizedWords s).length := by
  have := processTokens_snd s [] 0
  simpa [workerLocal] using this

theorem workerLocal_mapTotal (s : List String) :
    mapTotal (workerLocal s).1 = (normalizedWords s).length := by
  have := processTokens_mapTotal s [] 0
  simpa [workerLocal, mapTotal] using this

theorem build_getCount (method : SyncMethod) (W : Nat) (raws : List String)
    (x : String) (h : 1 ≤ W) :
    getCount (buildWordMapFromList method W raws).1 x =
      (normalizedWords raws).count x := by
  by_cases hre : raws.isEmpty
  · have hnil : raws = [] := List.isEmpty_iff.mp hre
    subst hnil
    cases method <;> simp [buildWordMapFromList, getCount, normalizedWords]
  · rw [buildWordMapFromList_eq method W raws (Bool.eq_false_iff.mpr hre)]
    rw [getCount_foldMerge]
    simp only [getCount, Nat.zero_add, List.map_map]
    rw [List.map_congr_left (fun s _ => by
      simpa using workerLocal_entriesSum s x)]
    rw [slices_count_sum, flatten_slices W raws h]

theorem build_snd (method : SyncMethod) (W : Nat) (raws : List String) (h : 1 ≤ W) :
    (buildWordMapFromList method W raws).2 = (normalizedWords raws).length := by
  by_cases hre : raws.isEmpty
  · have hnil : raws = [] := List.isEmpty_iff.mp hre
    subst hnil
    cases method <;> simp [buildWordMapFromList, normalizedWords]
  · rw [buildWordMapFromList_eq method W raws (Bool.eq_false_iff.mpr hre)]
    simp only [List.map_map]
    rw [List.map_congr_left (fun s _ => by simpa using workerLocal_snd s)]
    rw [slices_length_sum, flatten_slices W raws h]

theorem build_total_eq_mapTotal (method : SyncMethod) (W : Nat) (raws : List String) :
    (buildWordMapFromList method W raws).2 =
      mapTotal (buildWordMapFromList method W raws).1 := by
  by_cases hre : raws.isEmpty
  · have hnil : raws = [] := List.isEmpty_iff.mp hre
    subst hnil
    cases method <;> simp [buildWordMapFromList, mapTotal]
  · rw [buildWordMapFromList_eq method W raws (Bool.eq_false_iff.mpr hre)]
    rw [mapTotal_foldMerge]
    have h0 : mapTotal ([] : WordMap) = 0 := rfl
    rw [h0, Nat.zero_add]
    simp only [List.map_map]
    exact congrArg List.sum (List.map_congr_left (fun s _ =>
      (workerLocal_snd s).trans (workerLocal_mapTotal s).symm))

theorem build_keysNodup (method : SyncMethod) (W : Nat) (raws : List String) :
    keysNodup (buildWordMapFromList method W raws).1 := by
  by_cases hre : raws.isEmpty
  · have hnil : raws = [] := List.isEmpty_iff.mp hre
    subst hnil
    cases method <;> simp [buildWordMapFromList, keysNodup, keys]
  · rw [buildWordMapFromList_eq method W raws (Bool.eq_false_iff.mpr hre)]
    exact keysNodup_foldMerge _ [] (by simp [keysNodup, keys])

theorem build_posCounts (method : SyncMethod) (W : Nat) (raws : List String) :
    posCounts (buildWordMapFromList method W raws).1 := by
  by_cases hre : raws.isEmpty
  · have hnil : raws = [] := List.isEmpty_iff.mp hre
    subst hnil
    cases method <;> simp [buildWordMapFromList, posCounts]
  · rw [buildWordMapFromList_eq method W raws (Bool.eq_false_iff.mpr hre)]
    refine posCounts_foldMerge _ [] (by simp [posCounts]) ?_
    intro lc hlc
    rcases List.mem_map.mp hlc with ⟨s, _, hs⟩
    subst hs
    exact processTokens_posCounts s [] 0 (by simp [posCounts])

theorem countWordsSeq_getCount (text : String) (x : String) :
    getCount (countWordsSeq text).map x =
      (normalizedWords (tokenize text)).count x := by
  have := processTokens_getCount (tokenize text) [] 0 x
  simpa [countWordsSeq, getCount] using this

theorem countWordsSeq_total (text : String) :
    (countWordsSeq text).totalWords = (normalizedWords (tokenize text)).length := by
  have := processTokens_snd (tokenize text) [] 0
  simpa [countWordsSeq] using this

theorem countWordsSeq_mapTotal (text : String) :
    mapTotal (countWordsSeq text).map = (normalizedWords (tokenize text)).length := by
  have := processTokens_mapTotal (tokenize text) [] 0
  simpa [countWordsSeq, mapTotal] using this

theorem countWordsSeq_keysNodup (text : String) :
    keysNodup (countWordsSeq text).map :=
  processTokens_keysNodup (tokenize text) [] 0 (by simp [keysNodup, keys])

theorem countWordsSeq_posCounts (text : String) :
    posCounts (countWordsSeq text).map :=
  processTokens_posCounts (tokenize text) [] 0 (by simp [posCounts])

/-- Two well-formed maps with the same counts everywhere have the same size. -/
theorem length_eq_of_getCount_eq (a b : WordMap)
    (ha : keysNodup a) (hb : keysNodup b) (pa : posCounts a) (pb : posCounts b)
    (h : ∀ x, getCount a x = getCount b x) : a.length = b.length := by
  have hkeys : (keys a).toFinset = (keys b).toFinset := by
    apply Finset.ext
    intro x
    rw [List.mem_toFinset, List.mem_toFinset]
    rw [← getCount_pos_iff a x pa, ← getCount_pos_iff b x pb, h x]
  have la : a.length = (keys a).toFinset.card := by
    rw [List.toFinset_card_of_nodup ha]; simp [keys]
  have lb : b.length = (keys b).toFinset.card := by
    rw [List.toFinset_card_of_nodup hb]; simp [keys]
  rw [la, lb, hkeys]

/-- Key-set cardinality coincides with map size on well-formed maps. -/
theorem keyCard_eq_length (m : WordMap) (h : keysNodup m) : keyCard m = m.length := by
  rw [keyCard, List.toFinset_card_of_nodup h]
  simp [keys]

/-! ## Supporting lemma for the normalization characterization -/

theorem normalize_foldl_filter_map (l : List Char) : ∀ acc : List Char,
    l.foldl (fun acc c => if isAlphaChar c then acc ++ [toLowerChar c] else acc) acc
      = acc ++ (l.filter (fun c => isAlphaChar c)).map toLowerChar := by
  induction l with
  | nil => intro acc; simp
  | cons c rest ih =>
    intro acc
    by_cases h : isAlphaChar c
    · simp [List.foldl_cons, h, ih, List.filter_cons]
    · simp [List.foldl_cons, h, ih, List.filter_cons]

/-! ## The claims -/

/-- C1: for every input token list and every worker count, running the
parallel word count with each of the three synchronization strategies
(reduction, atomic, critical) produces the same global frequency map and the
same total word count; the strategy choice never affects the result. -/
theorem syncMethods_agree (m₁ m₂ : SyncMethod) (W : Nat) (raws : List String) :
    buildWordMapFromList m₁ W raws = buildWordMapFromList m₂ W raws := by
  cases m₁ <;> cases m₂ <;>
    simp [buildWordMapFromList, foldAdd_eq_sum]

/-- C2: for every input text, every sync method and every worker count
`W ≥ 1` (in particular each `W` up to the hardware concurrency), the parallel
counter's frequency map, total word count and unique word count all equal the
sequential baseline's on the same input.  Map equality is the extensional
(`unordered_map`) one: every key carries the same count on both sides. -/
theorem parallel_matches_sequential (text : String) (method : SyncMethod) (W : Nat)
    (h : 1 ≤ W) :
    (∀ x, getCount (countWordsPar method W text).map x
        = getCount (countWordsSeq text).map x)
    ∧ (countWordsPar method W text).totalWords = (countWordsSeq text).totalWords
    ∧ (countWordsPar method W text).uniqueWords = (countWordsSeq text).uniqueWords := by
  refine ⟨fun x => ?_, ?_, ?_⟩
  · show getCount (buildWordMapFromList method W (tokenize text)).1 x = _
    rw [build_getCount method W (tokenize text) x h, countWordsSeq_getCount]
  · show (buildWordMapFromList method W (tokenize text)).2 = _
    rw [build_snd method W (tokenize text) h, countWordsSeq_total]
  · show (buildWordMapFromList method W (tokenize text)).1.length
      = (countWordsSeq text).map.length
    apply length_eq_of_getCount_eq
    · exact build_keysNodup method W (tokenize text)
    · exact countWordsSeq_keysNodup text
    · exact build_posCounts method W (tokenize text)
    · exact countWordsSeq_posCounts text
    · intro x
      rw [build_getCount method W (tokenize text) x h, countWordsSeq_getCount]

/-- Closed instance of `parallel_matches_sequential` at a concrete text and
worker count. -/
theorem parallel_matches_sequential_witness :
    1 ≤ 2 ∧ (countWordsPar SyncMethod.Reduction 2 "ab cd ab").totalWords
      = (countWordsSeq "ab cd ab").totalWords :=
  ⟨by decide,
    (parallel_matches_sequential "ab cd ab" SyncMethod.Reduction 2 (by decide)).2.1⟩

/-- C3: after every counting operation (the sequential and the parallel
`countWords`, and the raw parallel build, merge included), the recorded total
word count equals the sum of the counts over all words of the produced
frequency map, and the recorded unique word count equals the cardinality of
the map's key set. -/
theorem counts_consistent :
    (∀ text : String,
        (countWordsSeq text).totalWords = mapTotal (countWordsSeq text).map
        ∧ (countWordsSeq text).uniqueWords = keyCard (countWordsSeq text).map)
    ∧ (∀ (method : SyncMethod) (W : Nat) (text : String),
        (countWordsPar method W text).totalWords
          = mapTotal (countWordsPar method W text).map
        ∧ (countWordsPar method W text).uniqueWords
          = keyCard (countWordsPar method W text).map)
    ∧ (∀ (method : SyncMethod) (W : Nat) (raws : List String),
        (buildWordMapFromList method W raws).2
          = mapTotal (buildWordMapFromList method W raws).1) := by
  refine ⟨fun text => ⟨?_, ?_⟩, fun method W text => ⟨?_, ?_⟩, fun method W raws => ?_⟩
  · rw [countWordsSeq_total, countWordsSeq_mapTotal]
  · show (countWordsSeq text).map.length = _
    rw [keyCard_eq_length _ (countWordsSeq_keysNodup text)]
  · show (buildWordMapFromList method W (tokenize text)).2
      = mapTotal (buildWordMapFromList method W (tokenize text)).1
    exact build_total_eq_mapTotal method W (tokenize text)
  · show (buildWordMapFromList method W (tokenize text)).1.length
      = keyCard (buildWordMapFromList method W (tokenize text)).1
    rw [keyCard_eq_length _ (build_keysNodup method W (tokenize text))]
  · exact build_total_eq_mapTotal method W raws

/-- C4: `normalizeWord` keeps exactly the ASCII-alphabetic characters of its
input, in order and lowercased, dropping everything else; the three
spec examples hold; and a token normalizing to the empty string contributes to
neither the frequency map nor the running count (the shared loop body leaves
both untouched). -/
theorem normalize_spec :
    (∀ w : String,
        normalizeWord w = ⟨(w.data.filter (fun c => isAlphaChar c)).map toLowerChar⟩)
    ∧ normalizeWord "Hello," = "hello"
    ∧ normalizeWord "123" = ""
    ∧ normalizeWord "" = ""
    ∧ (∀ (acc : WordMap × Nat) (tok : String),
        normalizeWord tok = "" → countStep acc tok = acc) := by
  refine ⟨fun w => ?_, by decide, by decide, by decide, fun acc tok h => ?_⟩
  · show (⟨w.data.foldl _ []⟩ : String) = _
    rw [normalize_foldl_filter_map w.data []]
    rfl
  · simp [countStep, h]

/-- Closed instance of `normalize_spec` on an all-punctuation token. -/
theorem normalize_spec_witness :
    normalizeWord "++" = "" ∧ countStep ([("x", 1)], 1) "++" = ([("x", 1)], 1) :=
  ⟨by decide, normalize_spec.2.2.2.2 ([("x", 1)], 1) "++" (by decide)⟩

/-- C5: counting the text "the Cat sat on the MAT" yields the frequency map
`{"the": 2, "cat": 1, "sat": 1, "on": 1, "mat": 1}` with 6 total words and 5
unique words, sequentially and in parallel under every sync method (worker
count 4 shown). -/
theorem countWords_example :
    countWordsSeq "the Cat sat on the MAT"
        = ⟨[("the", 2), ("cat", 1), ("sat", 1), ("on", 1), ("mat", 1)], 6, 5⟩
    ∧ (∀ method : SyncMethod, countWordsPar method 4 "the Cat sat on the MAT"
        = ⟨[("the", 2), ("cat", 1), ("sat", 1), ("on", 1), ("mat", 1)], 6, 5⟩) := by
  refine ⟨by decide, fun method => ?_⟩
  cases method <;> decide

/-- C6: `getTopWords` returns the map's entries sorted descending by count,
truncated to the first `n` entries exactly when `0 < n < size` (otherwise all
entries are returned); on `{"a": 5, "b": 3, "c": 3}` with `n = 2` the result
has two elements, the first is `("a", 5)` and the second is `("b", 3)` or
`("c", 3)`. -/
theorem getTopWords_spec :
    (∀ (m : WordMap) (n : Int), ∃ v : List (String × Nat),
        v.Perm m ∧ List.Sorted byCountDesc v ∧
        getTopWords m n = if 0 < n ∧ n < (v.length : Int) then v.take n.toNat else v)
    ∧ (getTopWords [("a", 5), ("b", 3), ("c", 3)] 2).length = 2
    ∧ (getTopWords [("a", 5), ("b", 3), ("c", 3)] 2).head? = some ("a", 5)
    ∧ ((getTopWords [("a", 5), ("b", 3), ("c", 3)] 2).get? 1 = some ("b", 3)
        ∨ (getTopWords [("a", 5), ("b", 3), ("c", 3)] 2).get? 1 = some ("c", 3)) := by
  refine ⟨fun m n => ⟨List.insertionSort byCountDesc m,
    List.perm_insertionSort byCountDesc m,
    List.sorted_insertionSort byCountDesc m, rfl⟩, by decide, by decide, ?_⟩
  left
  decide

/-- C7: when the input file cannot be opened, `countWordsFromFile` (in either
class, any sync method and worker count) reports the condition on the console,
returns an empty frequency map and records an elapsed time of zero; the
operation returns normally, raising no exception across the boundary (the
model is a total function). -/
theorem fileOpenFailure_spec (fs : String → Option String) (elapsed : Nat)
    (st : CounterState) (filename : String) (method : SyncMethod) (W : Nat)
    (h : fs filename = none) :
    countWordsFromFileSeq fs elapsed st filename
        = ⟨{ st with executionTime := 0 }, [], ["Error: Cannot open file " ++ filename]⟩
    ∧ countWordsFromFilePar method W fs elapsed st filename
        = ⟨{ st with executionTime := 0 }, [], ["Error: Cannot open file " ++ filename]⟩ := by
  constructor <;> simp [countWordsFromFileSeq, countWordsFromFilePar, h]

/-- Closed instance of `fileOpenFailure_spec` on an absent file. -/
theorem fileOpenFailure_spec_witness :
    (fun _ : String => (none : Option String)) "missing.txt" = none
    ∧ (countWordsFromFileSeq (fun _ => none) 7 ⟨5, 6, 7⟩ "missing.txt").map = [] := by
  refine ⟨rfl, ?_⟩
  rw [(fileOpenFailure_spec (fun _ => none) 7 ⟨5, 6, 7⟩ "missing.txt"
    SyncMethod.Atomic 3 rfl).1]

/-- C8: when the output destination cannot be opened, `saveResults` (shared by
both classes) reports the failure as an I/O error message on the console and
aborts without writing anything; it returns normally (the model is a total
function), so the rest of the program continues. -/
theorem saveFailure_spec (canWrite : String → Bool) (st : CounterState)
    (wordMap : WordMap) (filename : String) (topN : Int)
    (h : canWrite filename = false) :
    saveResults canWrite st wordMap filename topN
      = ⟨none, ["Error: Cannot create output file " ++ filename]⟩ := by
  simp [saveResults, h]

/-- Closed instance of `saveFailure_spec` on an unwritable path. -/
theorem saveFailure_spec_witness :
    (fun _ : String => false) "out.txt" = false
    ∧ (saveResults (fun _ => false) ⟨1, 2, 3⟩ [("a", 1)] "out.txt" 5).written = none := by
  refine ⟨rfl, ?_⟩
  rw [saveFailure_spec (fun _ => false) ⟨1, 2, 3⟩ [("a", 1)] "out.txt" 5 rfl]

/-- C9: running `countWordsFromFile` twice on the same unmodified file (same
file-system snapshot) yields the same frequency map and the same recorded
total word count on both runs, in either class, even though the measured
elapsed times `e₁`, `e₂` may differ. -/
theorem countFromFile_idempotent (fs : String → Option String) (e₁ e₂ : Nat)
    (st : CounterState) (filename : String) (method : SyncMethod) (W : Nat) :
    ((countWordsFromFileSeq fs e₂
          (countWordsFromFileSeq fs e₁ st filename).state filename).map
        = (countWordsFromFileSeq fs e₁ st filename).map
      ∧ (countWordsFromFileSeq fs e₂
          (countWordsFromFileSeq fs e₁ st filename).state filename).state.totalWords
        = (countWordsFromFileSeq fs e₁ st filename).state.totalWords)
    ∧ ((countWordsFromFilePar method W fs e₂
          (countWordsFromFilePar method W fs e₁ st filename).state filename).map
        = (countWordsFromFilePar method W fs e₁ st filename).map
      ∧ (countWordsFromFilePar method W fs e₂
          (countWordsFromFilePar method W fs e₁ st filename).state filename).state.totalWords
        = (countWordsFromFilePar method W fs e₁ st filename).state.totalWords) := by
  cases hf : fs filename <;>
    simp [countWordsFromFileSeq, countWordsFromFilePar, hf]

/-- C10: when the input file cannot be opened, the only member
`countWordsFromFile` modifies is the elapsed time (set to zero): `totalWords`
and `uniqueWords` keep the values from the previous counting operation (or the
constructor's zeros), so the getters still return them. -/
theorem fileOpenFailure_frame (fs : String → Option String) (elapsed : Nat)
    (st : CounterState) (filename : String) (method : SyncMethod) (W : Nat)
    (h : fs filename = none) :
    (countWordsFromFileSeq fs elapsed st filename).state
        = { st with executionTime := 0 }
    ∧ (countWordsFromFilePar method W fs elapsed st filename).state
        = { st with executionTime := 0 } := by
  constructor <;> simp [countWordsFromFileSeq, countWordsFromFilePar, h]

/-- Closed instance of `fileOpenFailure_frame`: a counter that has already
counted keeps its statistics across a failed run. -/
theorem fileOpenFailure_frame_witness :
    (fun _ : String => (none : Option String)) "ghost.txt" = none
    ∧ (countWordsFromFileSeq (fun _ => none) 9 ⟨3, 6, 5⟩ "ghost.txt").state.totalWords = 6
    ∧ (countWordsFromFilePar SyncMethod.Critical 2
        (fun _ => none) 9 ⟨3, 6, 5⟩ "ghost.txt").state.uniqueWords = 5 := by
  have h := fileOpenFailure_frame (fun _ => none) 9 ⟨3, 6, 5⟩ "ghost.txt"
    SyncMethod.Critical 2 rfl
  exact ⟨rfl, by rw [h.1], by rw [h.2]⟩

end WordCounter
